import Mathlib

/-!
# Verification of the go-term interactive terminal (src/main.go, src/terminal.go)

A shallow embedding of the input decoding, line editing, history, search and
completion logic of the repository, together with theorems settling the frozen
claims C1..C10.  Strings are embedded as `List Char` (the programs only handle
ASCII byte strings), raw input bytes as `Nat`, and the Go `int` fields holding
the `-1` sentinels (`historyIndex`, `searchIndex`, `selectedIndex`) as `Int`.
-/

/-- A Go string, embedded as its list of characters. -/
abbrev Str := List Char

/-- Convert a Lean string literal into the embedding type. -/
def toStr (s : String) : Str := s.toList

/-- Embeds Go `strings.ToLower` (all strings in play are ASCII). -/
def lowerStr (s : Str) : Str := s.map Char.toLower

/-- Embeds Go `strings.HasPrefix p s` (here: `strStartsWith s p`). -/
def strStartsWith : Str → Str → Bool
  | _, [] => true
  | [], _ :: _ => false
  | a :: s, b :: p => a = b && strStartsWith s p

/-- Embeds Go `strings.Contains s sub`: `sub` occurs somewhere inside `s`. -/
def strContains (s sub : Str) : Bool :=
  (List.range (s.length + 1)).any (fun n => strStartsWith (s.drop n) sub)

/-- The seen-map/append loops the Go code uses to deduplicate while keeping the
first occurrence (e.g. `terminal.go:228-236`, `terminal.go:345-352`). -/
def dedupAcc (seen : List Str) : List Str → List Str
  | [] => []
  | a :: l => if a ∈ seen then dedupAcc seen l else a :: dedupAcc (a :: seen) l

/-! ## History store (terminal.go:684-793) -/

/-- Embeds `AddToHistory` (terminal.go:684-700): reject the empty string and an
immediate duplicate of the last entry, append, trim to the last 1000 entries
(`t.history = t.history[len(t.history)-1000:]`). -/
def AddToHistory (history : List Str) (cmd : Str) : List Str :=
  if cmd = [] ∨ history.getLast? = some cmd then history
  else if 1000 < (history ++ [cmd]).length then
    (history ++ [cmd]).drop ((history ++ [cmd]).length - 1000)
  else history ++ [cmd]

/-- Embeds `saveHistory` (terminal.go:780-793): the file content written is
`strings.Join(t.history, "\n")`. -/
def saveHistory (history : List Str) : Str :=
  List.intercalate ['\n'] history

/-- Embeds the parsing step of `loadHistory` (terminal.go:742-777): split the
file content on newlines and drop the empty lines. -/
def loadHistory (data : Str) : List Str :=
  (data.splitOn '\n').filter (fun l => l ≠ [])

/-- Embeds `GetPreviousHistory` (terminal.go:703-717).  Returns the printed
string together with the new `historyIndex`; the element access
`t.history[t.historyIndex]` is embedded with `List.getD`. -/
def GetPreviousHistory (history : List Str) (historyIndex : Int) : Str × Int :=
  if history.length = 0 then ([], historyIndex)
  else if historyIndex = -1 then
    (history.getD (history.length - 1) [], (history.length : Int) - 1)
  else if 0 < historyIndex then
    (history.getD (historyIndex - 1).toNat [], historyIndex - 1)
  else (history.getD historyIndex.toNat [], historyIndex)

/-- Embeds `GetNextHistory` (terminal.go:720-734). -/
def GetNextHistory (history : List Str) (historyIndex : Int) : Str × Int :=
  if historyIndex = -1 ∨ history.length = 0 then ([], historyIndex)
  else if historyIndex < (history.length : Int) - 1 then
    (history.getD (historyIndex + 1).toNat [], historyIndex + 1)
  else ([], -1)

/-- Embeds `ResetHistoryIndex` (terminal.go:737-739). -/
def ResetHistoryIndex : Int := -1

theorem GetPreviousHistory_idx (history : List Str) (idx : Int) :
    (GetPreviousHistory history idx).2 =
      if history.length = 0 then idx
      else if idx = -1 then (history.length : Int) - 1
      else if 0 < idx then idx - 1 else idx := by
  unfold GetPreviousHistory
  split
  · rfl
  · split
    · rfl
    · split <;> rfl

theorem GetNextHistory_idx (history : List Str) (idx : Int) :
    (GetNextHistory history idx).2 =
      if idx = -1 ∨ history.length = 0 then idx
      else if idx < (history.length : Int) - 1 then idx + 1 else -1 := by
  unfold GetNextHistory
  split
  · rfl
  · split <;> rfl

/-! ## C3/C4: the history store as a state machine over Add and Load -/

/-- The state of the history store: the in-memory list and the content of the
persisted history file (`~/.go_term_history`). -/
structure HistStore where
  history : List Str
  file : Str
  deriving DecidableEq

/-- An operation on the history store: `AddToHistory cmd` (which on success
synchronously rewrites the file, terminal.go:698-699) or a `loadHistory` of the
current file content. -/
inductive HistOp where
  | add (cmd : Str)
  | load
  deriving DecidableEq

/-- One step of the history store.  `add` mirrors `AddToHistory`: when the
command is rejected the method returns before saving, otherwise the file is
rewritten with the new list; `load` replaces the in-memory list with the parse
of the file. -/
def stepStore (s : HistStore) (op : HistOp) : HistStore :=
  match op with
  | .add cmd =>
    if cmd = [] ∨ s.history.getLast? = some cmd then s
    else
      let h := AddToHistory s.history cmd
      { history := h, file := saveHistory h }
  | .load => { s with history := loadHistory s.file }

/-- The store at startup: empty in-memory history and (terminal.go:755-762) an
empty history file. -/
def initStore : HistStore := { history := [], file := [] }

/-- Run a sequence of operations from the startup state. -/
def runStore (ops : List HistOp) : HistStore :=
  ops.foldl stepStore initStore

/-- No two consecutive entries of the list are equal. -/
def NoAdjDup (l : List Str) : Prop := List.Chain' (fun a b => a ≠ b) l

instance noAdjDupDec : (l : List Str) → Decidable (NoAdjDup l)
  | [] => isTrue List.chain'_nil
  | [a] => isTrue (List.chain'_singleton a)
  | a :: b :: l =>
    haveI := noAdjDupDec (b :: l)
    decidable_of_iff (a ≠ b ∧ NoAdjDup (b :: l)) List.chain'_cons.symm

/-- The invariant claimed for the in-memory history list. -/
def histInv (l : List Str) : Prop := NoAdjDup l ∧ l.length ≤ 1000

instance (l : List Str) : Decidable (histInv l) :=
  inferInstanceAs (Decidable (NoAdjDup l ∧ l.length ≤ 1000))

/-! ### Preservation lemmas for the history store -/

theorem chain'_drop {α : Type _} {R : α → α → Prop} {l : List α}
    (h : List.Chain' R l) (n : Nat) : List.Chain' R (l.drop n) := by
  have heq := List.take_append_drop n l
  rw [← heq] at h
  exact h.right_of_append

theorem mem_AddToHistory {h : List Str} {cmd c : Str}
    (hc : c ∈ AddToHistory h cmd) : c ∈ h ∨ (c = cmd ∧ cmd ≠ []) := by
  unfold AddToHistory at hc
  split at hc
  · exact Or.inl hc
  · rename_i hguard
    push_neg at hguard
    split at hc
    · rcases List.mem_append.mp (List.mem_of_mem_drop hc) with h1 | h1
      · exact Or.inl h1
      · exact Or.inr ⟨List.mem_singleton.mp h1, hguard.1⟩
    · rcases List.mem_append.mp hc with h1 | h1
      · exact Or.inl h1
      · exact Or.inr ⟨List.mem_singleton.mp h1, hguard.1⟩

theorem AddToHistory_noAdjDup {h : List Str} {cmd : Str}
    (hd : NoAdjDup h) : NoAdjDup (AddToHistory h cmd) := by
  unfold AddToHistory
  split
  · exact hd
  · rename_i hguard
    push_neg at hguard
    have happ : NoAdjDup (h ++ [cmd]) := by
      refine List.chain'_append.mpr ⟨hd, List.chain'_singleton cmd, ?_⟩
      intro x hx y hy
      simp only [List.head?_cons, Option.mem_def, Option.some.injEq] at hy
      subst hy
      intro hxy
      subst hxy
      exact hguard.2 hx
    split
    · exact chain'_drop happ _
    · exact happ

theorem AddToHistory_length {h : List Str} {cmd : Str}
    (hl : h.length ≤ 1000) : (AddToHistory h cmd).length ≤ 1000 := by
  unfold AddToHistory
  split
  · exact hl
  · split
    · simp only [List.length_drop]
      omega
    · rename_i hle
      exact Nat.not_lt.mp hle

theorem AddToHistory_length_ge {h : List Str} {cmd : Str}
    (hl : h.length ≤ 1000) : h.length ≤ (AddToHistory h cmd).length := by
  unfold AddToHistory
  split
  · exact Nat.le_refl _
  · split
    · simp only [List.length_drop, List.length_append, List.length_singleton]
      omega
    · simp only [List.length_append, List.length_singleton]
      omega

theorem loadHistory_saveHistory {h : List Str}
    (hh : ∀ c ∈ h, c ≠ [] ∧ '\n' ∉ c) :
    loadHistory (saveHistory h) = h := by
  unfold loadHistory saveHistory
  rcases h with _ | ⟨a, t⟩
  · decide
  · rw [show List.intercalate ['\n'] (a :: t) = ['\n'].intercalate (a :: t) from rfl,
        List.splitOn_intercalate (a :: t) '\n' (fun l hl => (hh l hl).2) (by simp)]
    exact List.filter_eq_self.mpr (fun c hc => by simpa using (hh c hc).1)

/-- The inductive invariant for the history store: the claimed invariant, plus
the facts that every entry is nonempty and newline-free and that the persisted
file is exactly the save of the in-memory list. -/
def goodStore (s : HistStore) : Prop :=
  histInv s.history ∧ (∀ c ∈ s.history, c ≠ [] ∧ '\n' ∉ c) ∧
    s.file = saveHistory s.history

/-- The commands added by a sequence of history-store operations. -/
def addedCmds : List HistOp → List Str
  | [] => []
  | .add cmd :: ops => cmd :: addedCmds ops
  | .load :: ops => addedCmds ops

theorem stepStore_good {s : HistStore} {op : HistOp}
    (hs : goodStore s) (hop : ∀ cmd, op = .add cmd → '\n' ∉ cmd) :
    goodStore (stepStore s op) := by
  obtain ⟨⟨hdup, hlen⟩, hent, hfile⟩ := hs
  cases op with
  | add cmd =>
    unfold stepStore
    simp only
    split
    · exact ⟨⟨hdup, hlen⟩, hent, hfile⟩
    · rename_i hguard
      push_neg at hguard
      refine ⟨⟨AddToHistory_noAdjDup hdup, AddToHistory_length hlen⟩, ?_, rfl⟩
      intro c hc
      rcases mem_AddToHistory hc with h1 | ⟨h1, h2⟩
      · exact hent c h1
      · subst h1
        exact ⟨h2, hop c rfl⟩
  | load =>
    have h1 : loadHistory s.file = s.history := by
      rw [hfile]
      exact loadHistory_saveHistory hent
    show goodStore { history := loadHistory s.file, file := s.file }
    rw [h1]
    exact ⟨⟨hdup, hlen⟩, hent, hfile⟩

theorem foldl_stepStore_good {ops : List HistOp} {s : HistStore}
    (hs : goodStore s) (hops : ∀ cmd ∈ addedCmds ops, '\n' ∉ cmd) :
    goodStore (ops.foldl stepStore s) := by
  induction ops generalizing s with
  | nil => exact hs
  | cons op rest ih =>
    have hstep : goodStore (stepStore s op) := by
      refine stepStore_good hs ?_
      intro cmd hcmd
      subst hcmd
      exact hops cmd (by simp [addedCmds])
    refine ih hstep ?_
    intro cmd hcmd
    refine hops cmd ?_
    cases op <;> simp [addedCmds, hcmd]

/-- C3 (amended): starting from the empty store, for every sequence of
`AddToHistory` and `loadHistory` operations in which every added command is
free of embedded newlines, the in-memory history never contains two
consecutive equal entries and never exceeds 1000 entries. -/
theorem c3_history_invariant (ops : List HistOp)
    (hops : ∀ cmd ∈ addedCmds ops, '\n' ∉ cmd) :
    histInv (runStore ops).history := by
  have hinit : goodStore initStore := by
    refine ⟨⟨List.chain'_nil, by simp [initStore]⟩, ?_, by decide⟩
    intro c hc
    simp [initStore] at hc
  exact (foldl_stepStore_good hinit hops).1

/-- C3 witness: a concrete newline-free run through the amended theorem. -/
theorem c3_history_invariant_witness :
    (∀ cmd ∈ addedCmds [HistOp.add (toStr "ls"), HistOp.add (toStr "cd x"),
        HistOp.load, HistOp.add (toStr "cd x")], '\n' ∉ cmd) ∧
    histInv (runStore [HistOp.add (toStr "ls"), HistOp.add (toStr "cd x"),
        HistOp.load, HistOp.add (toStr "cd x")]).history :=
  ⟨by decide, c3_history_invariant _ (by decide)⟩

/-- C3 counterexample: the claim as stated allows arbitrary added strings.
Adding the single command `"a\na"` (legal for `AddToHistory`, which only
rejects the empty string and immediate duplicates) and then loading the file
yields the in-memory list `["a", "a"]`: two consecutive equal entries. -/
theorem c3_counterexample :
    (runStore [HistOp.add (toStr "a\na"), HistOp.load]).history = [['a'], ['a']] ∧
    ¬ NoAdjDup (runStore [HistOp.add (toStr "a\na"), HistOp.load]).history :=
  ⟨by decide, by decide⟩

/-! ## C4: save/load round trip for Add sequences -/

theorem foldl_AddToHistory_entries {cmds : List Str} {h : List Str}
    (hh : ∀ c ∈ h, c ≠ [] ∧ '\n' ∉ c) (hc : ∀ c ∈ cmds, '\n' ∉ c) :
    ∀ c ∈ cmds.foldl AddToHistory h, c ≠ [] ∧ '\n' ∉ c := by
  induction cmds generalizing h with
  | nil => exact hh
  | cons a rest ih =>
    refine ih ?_ (fun c hmem => hc c (List.mem_cons_of_mem _ hmem))
    intro c hcmem
    rcases mem_AddToHistory hcmem with h1 | ⟨h1, h2⟩
    · exact hh c h1
    · subst h1
      exact ⟨h2, hc c (List.mem_cons_self _ _)⟩

/-- C4: for every sequence of `AddToHistory` calls starting from the empty
history, with every command free of embedded newlines, saving the history file
and reloading it reproduces the in-memory history list exactly. -/
theorem c4_save_load_roundtrip (cmds : List Str) (hnl : ∀ c ∈ cmds, '\n' ∉ c) :
    loadHistory (saveHistory (cmds.foldl AddToHistory []))
      = cmds.foldl AddToHistory [] :=
  loadHistory_saveHistory
    (foldl_AddToHistory_entries (fun c hc => absurd hc (List.not_mem_nil c)) hnl)

/-- C4 witness: a concrete run (with an empty string and an immediate
duplicate, both rejected by Add) through the round-trip theorem. -/
theorem c4_save_load_roundtrip_witness :
    (∀ c ∈ [toStr "ls", toStr "", toStr "git st", toStr "git st"], '\n' ∉ c) ∧
    loadHistory (saveHistory
        ([toStr "ls", toStr "", toStr "git st", toStr "git st"].foldl AddToHistory []))
      = [toStr "ls", toStr "", toStr "git st", toStr "git st"].foldl AddToHistory [] :=
  ⟨by decide, c4_save_load_roundtrip _ (by decide)⟩

/-! ## C5: navigation semantics of GetPreviousHistory / GetNextHistory -/

/-- C5: on the states reachable by navigation (`historyIndex` is `-1` or a
valid position), `GetPreviousHistory` returns the empty string if history is
empty, jumps to the newest entry if `historyIndex = -1`, and otherwise
decrements toward index 0 stopping at 0; `GetNextHistory` returns the empty
string when not navigating, increments and returns the entry at the new index
when not at the newest entry, and at the newest entry sets `historyIndex` to
`-1` and returns the empty string. -/
theorem c5_history_navigation (history : List Str) (idx : Int)
    (hinv : idx = -1 ∨ (0 ≤ idx ∧ idx < history.length)) :
    (history = [] → GetPreviousHistory history idx = ([], idx)) ∧
    (history ≠ [] → idx = -1 →
      GetPreviousHistory history idx
        = (history.getD (history.length - 1) [], (history.length : Int) - 1)) ∧
    (0 < idx →
      GetPreviousHistory history idx
        = (history.getD (idx - 1).toNat [], idx - 1)) ∧
    (history ≠ [] → idx = 0 →
      GetPreviousHistory history idx = (history.getD 0 [], 0)) ∧
    (idx = -1 → GetNextHistory history idx = ([], idx)) ∧
    (0 ≤ idx → idx < (history.length : Int) - 1 →
      GetNextHistory history idx
        = (history.getD (idx + 1).toNat [], idx + 1)) ∧
    (0 ≤ idx → idx = (history.length : Int) - 1 →
      GetNextHistory history idx = ([], -1)) := by
  refine ⟨?_, ?_, ?_, ?_, ?_, ?_, ?_⟩
  · intro h0
    subst h0
    rfl
  · intro hne hidx
    subst hidx
    have hlen : history.length ≠ 0 := fun h => hne (List.length_eq_zero.mp h)
    unfold GetPreviousHistory
    rw [if_neg hlen, if_pos rfl]
  · intro hpos
    have hlen : history.length ≠ 0 := by
      rcases hinv with h | ⟨_, h2⟩ <;> omega
    unfold GetPreviousHistory
    rw [if_neg hlen, if_neg (by omega), if_pos hpos]
  · intro hne hidx
    subst hidx
    have hlen : history.length ≠ 0 := fun h => hne (List.length_eq_zero.mp h)
    unfold GetPreviousHistory
    rw [if_neg hlen, if_neg (by decide), if_neg (by decide)]
    rfl
  · intro hidx
    subst hidx
    unfold GetNextHistory
    rw [if_pos (Or.inl rfl)]
  · intro h0 hlt
    unfold GetNextHistory
    rw [if_neg (by push_neg; constructor <;> omega), if_pos hlt]
  · intro h0 hidx
    unfold GetNextHistory
    rw [if_neg (by push_neg; constructor <;> omega), if_neg (by omega)]

/-- C5 witness: history `["a", "b"]`, `historyIndex = 1`: `GetPreviousHistory`
decrements to 0 and returns `"a"`. -/
theorem c5_history_navigation_witness :
    ((1 : Int) = -1 ∨ (0 ≤ (1 : Int) ∧
        (1 : Int) < ([toStr "a", toStr "b"] : List Str).length)) ∧
    GetPreviousHistory [toStr "a", toStr "b"] 1 = (toStr "a", 0) := by
  refine ⟨Or.inr (by decide), ?_⟩
  have h := (c5_history_navigation [toStr "a", toStr "b"] 1
    (Or.inr (by decide))).2.2.1 (by decide)
  rw [h]
  decide

/-! ## C10: the historyIndex invariant under navigation sequences -/

/-- An operation of the navigation interface of the terminal. -/
inductive NavOp where
  | add (cmd : Str)
  | prev
  | next
  | reset
  deriving DecidableEq

/-- One step of the navigation state (history list, historyIndex), as the
corresponding Terminal method mutates it. -/
def navStep (s : List Str × Int) (op : NavOp) : List Str × Int :=
  match op with
  | .add cmd => (AddToHistory s.1 cmd, s.2)
  | .prev => (s.1, (GetPreviousHistory s.1 s.2).2)
  | .next => (s.1, (GetNextHistory s.1 s.2).2)
  | .reset => (s.1, ResetHistoryIndex)

/-- Run a sequence of navigation operations from a freshly constructed
Terminal (`historyIndex = -1`, empty history; terminal.go:64-69). -/
def navRun (ops : List NavOp) : List Str × Int :=
  ops.foldl navStep ([], -1)

/-- The claimed invariant: `historyIndex` is `-1` or in bounds. -/
def navInv (s : List Str × Int) : Prop :=
  s.2 = -1 ∨ (0 ≤ s.2 ∧ s.2 < s.1.length)

/-- The inductive strengthening: the invariant plus the 1000-entry cap (needed
so that the trim in `AddToHistory` cannot shrink the list below the index). -/
def navInvFull (s : List Str × Int) : Prop :=
  navInv s ∧ s.1.length ≤ 1000

theorem navStep_inv {s : List Str × Int} (hs : navInvFull s) (op : NavOp) :
    navInvFull (navStep s op) := by
  obtain ⟨hinv, hcap⟩ := hs
  cases op with
  | add cmd =>
    refine ⟨?_, AddToHistory_length hcap⟩
    rcases hinv with h | ⟨h1, h2⟩
    · exact Or.inl h
    · right
      refine ⟨h1, lt_of_lt_of_le h2 ?_⟩
      exact_mod_cast AddToHistory_length_ge hcap
  | prev =>
    refine ⟨?_, hcap⟩
    show navInv (s.1, (GetPreviousHistory s.1 s.2).2)
    unfold navInv at hinv ⊢
    dsimp only
    rw [GetPreviousHistory_idx]
    split
    · exact hinv
    · rename_i hlen
      split
      · right
        constructor <;> omega
      · rename_i h1
        rcases hinv with h | ⟨h3, h4⟩
        · exact absurd h h1
        · split
          · right
            constructor <;> omega
          · right
            exact ⟨h3, h4⟩
  | next =>
    refine ⟨?_, hcap⟩
    show navInv (s.1, (GetNextHistory s.1 s.2).2)
    unfold navInv at hinv ⊢
    dsimp only
    rw [GetNextHistory_idx]
    split
    · exact hinv
    · rename_i hguard
      push_neg at hguard
      split
      · rename_i hlt
        rcases hinv with h | ⟨h3, h4⟩
        · exact absurd h hguard.1
        · right
          constructor <;> omega
      · exact Or.inl rfl
  | reset =>
    exact ⟨Or.inl rfl, hcap⟩

/-- C10: starting from a freshly constructed Terminal, after any sequence of
`AddToHistory`, `GetPreviousHistory`, `GetNextHistory` and `ResetHistoryIndex`
calls, `historyIndex` is `-1` or satisfies `0 ≤ historyIndex < len(history)`;
consequently the element accesses these operations perform are in bounds: when
the history is nonempty, `GetPreviousHistory` reads at its updated (returned)
index, which is shown in bounds, and when `GetNextHistory` takes its
incrementing branch it reads at `historyIndex + 1`, also shown in bounds. -/
theorem c10_navigation_index_safety (ops : List NavOp) :
    navInv (navRun ops) ∧
    ((navRun ops).1 ≠ [] →
      ((GetPreviousHistory (navRun ops).1 (navRun ops).2).2).toNat
        < (navRun ops).1.length) ∧
    (((navRun ops).2 ≠ -1 ∧ (navRun ops).2 < ((navRun ops).1.length : Int) - 1) →
      ((navRun ops).2 + 1).toNat < (navRun ops).1.length) := by
  have hrun : navInvFull (navRun ops) := by
    have hgen : ∀ s, navInvFull s → navInvFull (ops.foldl navStep s) := by
      induction ops with
      | nil => exact fun s hs => hs
      | cons op rest ih => exact fun s hs => ih _ (navStep_inv hs op)
    exact hgen ([], -1) ⟨Or.inl rfl, by decide⟩
  obtain ⟨hinv, hcap⟩ := hrun
  refine ⟨hinv, ?_, ?_⟩
  · intro hne
    have hlen : (navRun ops).1.length ≠ 0 :=
      fun h => hne (List.length_eq_zero.mp h)
    rw [GetPreviousHistory_idx]
    unfold navInv at hinv
    rcases hinv with h | ⟨h1, h2⟩ <;>
      · rw [if_neg hlen]
        split_ifs <;> omega
  · rintro ⟨h1, h2⟩
    rcases hinv with h | ⟨h3, h4⟩
    · exact absurd h h1
    · omega

/-- C10 has no hypotheses, but we record a concrete closed run through it. -/
theorem c10_navigation_index_safety_witness :
    navInv (navRun [NavOp.prev, NavOp.add (toStr "ls"), NavOp.prev, NavOp.next,
      NavOp.next, NavOp.reset, NavOp.prev]) :=
  (c10_navigation_index_safety _).1

/-! ## C6: incremental reverse history search (terminal.go:796-858) -/

/-- Embeds `UpdateHistorySearch` (terminal.go:817-835): rebuild `searchResults`
by scanning history newest-first (the loop from `len(t.history)-1` down to 0)
for entries whose lowercase form contains the lowercase query; set
`searchIndex` to 0 when any match exists, else leave it `-1`. -/
def searchMatches (history : List Str) (query : Str) : List Str :=
  history.reverse.filter (fun h => strContains (lowerStr h) (lowerStr query))

def UpdateHistorySearch (history : List Str) (query : Str) : List Str × Int :=
  if 0 < (searchMatches history query).length then (searchMatches history query, 0)
  else (searchMatches history query, -1)

/-- Embeds `GetNextSearchResult` (terminal.go:838-845): advance the cursor by
one modulo the number of results, returning the entry there; empty string when
there are no results.  Go's `%` on `int` is truncated `Int.tmod`. -/
def GetNextSearchResult (searchResults : List Str) (searchIndex : Int) :
    Str × Int :=
  if searchResults.length = 0 then ([], searchIndex)
  else
    (searchResults.getD
        (Int.tmod (searchIndex + 1) searchResults.length).toNat [],
      Int.tmod (searchIndex + 1) searchResults.length)

/-- C6: `UpdateHistorySearch` computes the matches in reverse chronological
order (the reverse of the chronological filter of entries whose lowercase form
contains the lowercase query) and starts the cursor at 0 (or -1 when there is
no match); `GetNextSearchResult` returns the empty string when there are no
matches, advances to the next result, and wraps around from the last match to
the first; on history `["foo", "bar", "foobar"]` with query `"foo"` the
matches are `["foobar", "foo"]` and three successive calls return `"foo"`,
`"foobar"`, `"foo"`. -/
theorem c6_reverse_search (history : List Str) (query : Str) :
    ((UpdateHistorySearch history query).1
      = (history.filter
          (fun h => strContains (lowerStr h) (lowerStr query))).reverse) ∧
    ((UpdateHistorySearch history query).1 ≠ [] →
      (UpdateHistorySearch history query).2 = 0) ∧
    ((UpdateHistorySearch history query).1 = [] →
      (UpdateHistorySearch history query).2 = -1) ∧
    (∀ (i : Int), GetNextSearchResult [] i = ([], i)) ∧
    (∀ (results : List Str) (i : Int), 0 ≤ i → i < (results.length : Int) - 1 →
      GetNextSearchResult results i
        = (results.getD (i + 1).toNat [], i + 1)) ∧
    (∀ (results : List Str) (i : Int), 0 ≤ i → i = (results.length : Int) - 1 →
      GetNextSearchResult results i = (results.getD 0 [], 0)) ∧
    (UpdateHistorySearch [toStr "foo", toStr "bar", toStr "foobar"] (toStr "foo")
        = ([toStr "foobar", toStr "foo"], 0) ∧
      GetNextSearchResult [toStr "foobar", toStr "foo"] 0 = (toStr "foo", 1) ∧
      GetNextSearchResult [toStr "foobar", toStr "foo"] 1 = (toStr "foobar", 0) ∧
      GetNextSearchResult [toStr "foobar", toStr "foo"] 1 ≠ ([], -1)) := by
  refine ⟨?_, ?_, ?_, ?_, ?_, ?_, by decide, by decide, by decide, by decide⟩
  · unfold UpdateHistorySearch searchMatches
    split <;> exact List.filter_reverse _ _
  · intro hne
    unfold UpdateHistorySearch at hne ⊢
    split at hne
    · rename_i hpos
      rw [if_pos hpos]
    · rename_i hpos
      have h0 : searchMatches history query = [] :=
        List.length_eq_zero.mp (by omega)
      exact absurd h0 hne
  · intro hemp
    unfold UpdateHistorySearch at hemp ⊢
    split at hemp
    · rename_i hpos
      dsimp only at hemp
      rw [hemp] at hpos
      simp at hpos
    · rename_i hpos
      rw [if_neg hpos]
  · intro i
    rfl
  · intro results i h0 hlt
    have hlen : results.length ≠ 0 := by omega
    unfold GetNextSearchResult
    rw [if_neg hlen,
      Int.tmod_eq_emod (by omega) (by omega),
      Int.emod_eq_of_lt (by omega) (by omega)]
  · intro results i h0 hend
    have hlen : results.length ≠ 0 := by omega
    unfold GetNextSearchResult
    have h1 : i + 1 = (results.length : Int) := by omega
    rw [if_neg hlen, h1, Int.tmod_eq_emod (by omega) (by omega), Int.emod_self]
    rfl

/-- C6 witness: wraparound at the end of a concrete two-element result list,
obtained by applying the theorem. -/
theorem c6_reverse_search_witness :
    (0 ≤ (1 : Int) ∧ (1 : Int) = (([toStr "x", toStr "y"] : List Str).length : Int) - 1) ∧
    GetNextSearchResult [toStr "x", toStr "y"] 1 = (toStr "x", 0) := by
  refine ⟨⟨by decide, by decide⟩, ?_⟩
  have h := (c6_reverse_search [] []).2.2.2.2.2.1 [toStr "x", toStr "y"] 1
    (by decide) (by decide)
  rw [h]
  decide

/-! ## Completion engine (terminal.go:339-529) -/

/-- The built-in command names (terminal.go:384). -/
def builtins : List Str :=
  [toStr "cd", toStr "clear", toStr "exit", toStr "help", toStr "quit"]

/-- The 6-character history source tag. -/
def tagHist : Str := toStr "HIST: "

/-- The 5-character command source tag (tag plus following space). -/
def tagCmd : Str := toStr "CMD: "

/-- The ASCII white space recognized by Go `strings.Fields` /
`unicode.IsSpace`: space, \t, \n, \v, \f, \r. -/
def isGoSpace (c : Char) : Bool :=
  c = ' ' || c = '\t' || c = '\n' || c = '\r' ||
    c = Char.ofNat 11 || c = Char.ofNat 12

/-- Embeds Go `strings.Fields`: the maximal runs of non-whitespace. -/
def fields (s : Str) : List Str :=
  (s.splitOnP isGoSpace).filter (fun w => w ≠ [])

/-- Byte-wise lexicographic order on ASCII strings, as compared by Go
`sort.Strings`. -/
def strLe : Str → Str → Bool
  | [], _ => true
  | _ :: _, [] => false
  | a :: s, b :: t => if a = b then strLe s t else decide (a < b)

def insertSorted (x : Str) : List Str → List Str
  | [] => [x]
  | y :: ys => if strLe x y then x :: y :: ys else y :: insertSorted x ys

/-- Models Go `sort.Strings`.  The engine only sorts deduplicated lists, on
which every correct sort by the total byte-wise order produces the same list,
so a stable insertion sort is an exact model of the output. -/
def sortStrs (l : List Str) : List Str := l.foldr insertSorted []

/-- The newest-first scan for up to 3 distinct history entries satisfying a
predicate (the loops at terminal.go:345-352, 363-370, 416-424, 496-504;
collecting at most 3 distinct matches newest-first is the same as filtering
the reversed history, deduplicating keeping first occurrences, and taking 3). -/
def histScan (history : List Str) (pred : Str → Bool) : List Str :=
  (dedupAcc [] (history.reverse.filter pred)).take 3

/-- Empty-input candidates (terminal.go:341-359): the up-to-3 most recent
distinct entries, tagged. -/
def histRecent (history : List Str) : List Str :=
  histScan history (fun _ => true)

/-- Case-insensitive prefix matches among history (terminal.go:363-370 and
416-424), untagged. -/
def histPrefMatches (history : List Str) (tok : Str) : List Str :=
  histScan history (fun cmd => strStartsWith (lowerStr cmd) (lowerStr tok))

/-- Substring matches among history for the path branch (terminal.go:496-504),
untagged; note the source matches against the tilde-expanded argument. -/
def histContainsMatches (history : List Str) (arg : Str) : List Str :=
  histScan history (fun cmd => strContains cmd arg)

/-- The environment the completion engine reads: the `os.ReadDir` result for
each PATH directory (`none` = unreadable, which the loop at
terminal.go:395-399 skips), the home directory for `~` expansion, and the file
system for path completion (`none` = `os.ReadDir` error). -/
structure Env where
  pathDirs : List (Option (List Str))
  home : Str
  readDir : Str → Option (List (Str × Bool))

/-- The single-token command candidates (terminal.go:380-413): matching
built-ins plus matching executable names from every readable PATH directory,
deduplicated as a set, tagged `CMD: ` and sorted. -/
def singleTokenCmds (pathDirs : List (Option (List Str))) (tok : Str) :
    List Str :=
  sortStrs ((dedupAcc []
      ((builtins.filter (fun c => strStartsWith c tok)) ++
        ((pathDirs.filterMap id).flatten.filter
          (fun n => strStartsWith n tok)))).map
    (fun c => tagCmd ++ c))

/-- The unconditional truncation of the command list to 3 entries at
terminal.go:433-435 (`if len(result) > 3`). -/
def truncCmds3 (l : List Str) : List Str := if 3 < l.length then l.take 3 else l

/-- The no-history truncation to 6 entries at terminal.go:442-444. -/
def truncCmds6 (l : List Str) : List Str := if 6 < l.length then l.take 6 else l

/-- The single-token branch of `GetCompletions` (terminal.go:379-446). -/
def GetCompletionsSingle (pathDirs : List (Option (List Str)))
    (history : List Str) (tok : Str) : List Str :=
  if histPrefMatches history tok ≠ [] then
    ((histPrefMatches history tok).map (fun c => tagHist ++ c)) ++
      truncCmds3 (singleTokenCmds pathDirs tok)
  else truncCmds6 (truncCmds3 (singleTokenCmds pathDirs tok))

/-- Splits a path at its last slash: `none` when there is no slash, otherwise
`some (before, after)`. -/
def pathSplit : Str → Option (Str × Str)
  | [] => none
  | c :: rest =>
    match pathSplit rest with
    | some (d, b) => some (c :: d, b)
    | none => if c = '/' then some ([], rest) else none

/-- Models Go `filepath.Dir` on the clean paths exercised by the claims (no
trailing slash, no `.`/`..` components): the part before the last slash, `"."`
when there is no slash, `"/"` when the only slash is leading. -/
def pathDirOf (p : Str) : Str :=
  match pathSplit p with
  | none => toStr "."
  | some ([], _) => toStr "/"
  | some (d, _) => d

/-- Models Go `filepath.Base` on the same clean paths: the part after the last
slash. -/
def pathBaseOf (p : Str) : Str :=
  match pathSplit p with
  | none => p
  | some (_, b) => b

/-- The final token of the buffer (terminal.go:450-455): empty when the input
ends in a space, otherwise the last field. -/
def currentArgOf (input : Str) (parts : List Str) : Str :=
  if input.getLast? = some ' ' then [] else parts.getLastD []

/-- `~` expansion of the token (terminal.go:458-463). -/
def expandTilde (home arg : Str) : Str :=
  if strStartsWith arg (toStr "~") then home ++ arg.drop 1 else arg

/-- The directory searched by the path branch (terminal.go:466-471). -/
def searchDirOf (home : Str) (input : Str) (parts : List Str) : Str :=
  if expandTilde home (currentArgOf input parts) = [] then toStr "."
  else pathDirOf (expandTilde home (currentArgOf input parts))

/-- The name part the path branch filters on (terminal.go:466-471). -/
def searchBaseOf (home : Str) (input : Str) (parts : List Str) : Str :=
  if expandTilde home (currentArgOf input parts) = [] then []
  else pathBaseOf (expandTilde home (currentArgOf input parts))

/-- The directory-listing loop at terminal.go:480-491: entries whose name has
the required prefix, deduplicated by name via the `seen` map, with `/` added
after directory names, tagged. -/
def pathEntryComps (pfx : Str) (seen : List Str) :
    List (Str × Bool) → List Str
  | [] => []
  | (name, isDir) :: rest =>
    if strStartsWith name pfx && !(decide (name ∈ seen)) then
      (tagCmd ++ (if isDir then name ++ ['/'] else name)) ::
        pathEntryComps pfx (name :: seen) rest
    else pathEntryComps pfx seen rest

/-- The truncation at terminal.go:512-517: with history matches the path list
is capped at 3; otherwise it is capped at 6. -/
def truncPathComps (histNonempty : Bool) (l : List Str) : List Str :=
  if histNonempty && decide (3 < l.length) then l.take 3
  else if 6 < l.length then l.take 6
  else l

/-- The path-argument branch of `GetCompletions` (terminal.go:449-526).  On an
unreadable directory (`os.ReadDir` error, terminal.go:474-477) it returns
`nil` at once. -/
def GetCompletionsPath (rd : Str → Option (List (Str × Bool))) (home : Str)
    (history : List Str) (input : Str) (parts : List Str) : List Str :=
  match rd (searchDirOf home input parts) with
  | none => []
  | some files =>
    let comps := sortStrs
      (pathEntryComps (searchBaseOf home input parts) [] files)
    let histM := (histContainsMatches history
      (expandTilde home (currentArgOf input parts))).map (fun c => tagHist ++ c)
    if histM ≠ [] then histM ++ truncPathComps true comps
    else truncPathComps false comps

/-- The branch test at terminal.go:379
(`len(parts) == 1 && !strings.Contains(input, " ")`). -/
def singleTokenCond (input : Str) : Bool :=
  (fields input).length == 1 && !(strContains input (toStr " "))

/-- Embeds `GetCompletions` (terminal.go:340-529). -/
def GetCompletions (env : Env) (history : List Str) (input : Str) : List Str :=
  if input = [] then (histRecent history).map (fun c => tagHist ++ c)
  else if fields input = [] then histPrefMatches history input
  else if singleTokenCond input then
    GetCompletionsSingle env.pathDirs history ((fields input).headD [])
  else
    GetCompletionsPath env.readDir env.home history input (fields input)

/-! ## C7: single-token truncation -/

/-- An environment whose single PATH directory holds ten executables
`g0`..`g9` (ten matches for the token `"g"`); no other file system. -/
def envTenG : Env :=
  { pathDirs := [some [toStr "g0", toStr "g1", toStr "g2", toStr "g3",
      toStr "g4", toStr "g5", toStr "g6", toStr "g7", toStr "g8", toStr "g9"]],
    home := [], readDir := fun _ => none }

/-- C7, behaviour of the code at the claim's inputs.  With one matching
history entry the result is exactly 1 history-tagged entry followed by 3
command-tagged entries (the claim's example holds).  With no matching history
entry and ten matching executables the result still has exactly 3 entries: the
`if len(result) > 3` truncation at terminal.go:433-435 runs unconditionally,
so the no-history cap of 6 at terminal.go:442-444 can never act, contradicting
the claim that without history matches up to 6 commands are returned. -/
theorem c7_single_token_truncation :
    GetCompletions envTenG [toStr "git status"] (toStr "g")
      = [toStr "HIST: git status", toStr "CMD: g0", toStr "CMD: g1",
          toStr "CMD: g2"] ∧
    GetCompletions envTenG [] (toStr "g")
      = [toStr "CMD: g0", toStr "CMD: g1", toStr "CMD: g2"] ∧
    (GetCompletions envTenG [] (toStr "g")).length = 3 ∧
    (singleTokenCmds envTenG.pathDirs (toStr "g")).length = 10 :=
  ⟨by decide, by decide, by decide, by decide⟩

/-! ## C9: unreadable directory in the path branch -/

/-- An environment in which every directory is unreadable. -/
def envNoFS : Env := { pathDirs := [], home := [], readDir := fun _ => none }

/-- C9 counterexample: for the multi-token buffer `"cat zzz/q"` whose final
token resolves to the unreadable directory `"zzz"`, the history entry
`"xx zzz/q yy"` contains the token as a substring (second conjunct), yet
`GetCompletions` returns the empty list: the `return nil` at
terminal.go:474-477 discards the history matches the claim says are kept. -/
theorem c9_counterexample :
    GetCompletions envNoFS [toStr "xx zzz/q yy"] (toStr "cat zzz/q") = [] ∧
    histContainsMatches [toStr "xx zzz/q yy"] (toStr "zzz/q")
      = [toStr "xx zzz/q yy"] :=
  ⟨by decide, by decide⟩

/-- C9 (amended): in the path branch, an unreadable directory makes
`GetCompletions` return the empty list — no path candidates and no history
candidates — and the call is total (it returns normally, not fatally). -/
theorem c9_unreadable_dir_returns_empty (env : Env) (history : List Str)
    (input : Str) (h1 : input ≠ []) (h2 : fields input ≠ [])
    (h3 : singleTokenCond input = false)
    (h4 : env.readDir (searchDirOf env.home input (fields input)) = none) :
    GetCompletions env history input = [] := by
  unfold GetCompletions
  rw [if_neg h1, if_neg h2, if_neg (by rw [h3]; exact Bool.false_ne_true)]
  unfold GetCompletionsPath
  rw [h4]

/-- C9 witness: the amended theorem applied at the counterexample's inputs. -/
theorem c9_unreadable_dir_returns_empty_witness :
    ((toStr "cat zzz/q" : Str) ≠ [] ∧ fields (toStr "cat zzz/q") ≠ [] ∧
      singleTokenCond (toStr "cat zzz/q") = false ∧
      envNoFS.readDir (searchDirOf envNoFS.home (toStr "cat zzz/q")
        (fields (toStr "cat zzz/q"))) = none) ∧
    GetCompletions envNoFS [toStr "ls -la"] (toStr "cat zzz/q") = [] :=
  ⟨⟨by decide, by decide, by decide, rfl⟩,
    c9_unreadable_dir_returns_empty envNoFS [toStr "ls -la"] (toStr "cat zzz/q")
      (by decide) (by decide) (by decide) rfl⟩

/-! ## C2: the inline suggestion (terminal.go:223-300) -/

/-- The selection loop at terminal.go:246-254: the first completion whose
lowercase form has the lowercase input as a prefix (the `seenSuggestions` map
never fills before the `break`, so it is passed along unchanged); the empty
string doubles as the no-match sentinel, as in the source. -/
def firstSuggestionLoop (input : Str) (seen : List Str) :
    List Str → Str
  | [] => []
  | comp :: rest =>
    if strStartsWith (lowerStr comp) (lowerStr input)
        && !(decide (comp ∈ seen)) then comp
    else firstSuggestionLoop input seen rest

/-- Embeds the suggestion computation of `ShowInlineSuggestion`
(terminal.go:223-299) as a function of the buffer and the completion list it
obtains from `GetCompletions`: `none` means the suggestion is cleared
(clear-to-end-of-line, `t.currentSuggestion = ""`), and `some (sugg, suffix)`
means `sugg` is stored and drawn and `suffix = sugg[len(input):]` is the text
rendered inline after the typed input. -/
def ShowInlineSuggestion (input : Str) (completions : List Str) :
    Option (Str × Str) :=
  if dedupAcc [] completions = [] then none
  else if firstSuggestionLoop input [] (dedupAcc [] completions) = [] then none
  else some (firstSuggestionLoop input [] (dedupAcc [] completions),
    (firstSuggestionLoop input [] (dedupAcc [] completions)).drop input.length)

/-- The amended inline-suggestion rule, stated from the amended claim's words:
the first completion after deduplication — with the source tags NOT stripped —
whose lowercase form has the full buffer as a lowercase prefix, together with
the unmatched suffix `suggestion[len(input):]`; no such (nonempty) completion
means the suggestion is cleared. -/
def inlineSuggestionRule (input : Str) (completions : List Str) :
    Option (Str × Str) :=
  match (dedupAcc [] completions).find?
      (fun comp => strStartsWith (lowerStr comp) (lowerStr input)) with
  | none => none
  | some s => if s = [] then none else some (s, s.drop input.length)

theorem firstSuggestionLoop_eq_find (input : Str) (l : List Str) :
    firstSuggestionLoop input [] l =
      (l.find? (fun comp =>
        strStartsWith (lowerStr comp) (lowerStr input))).getD [] := by
  induction l with
  | nil => rfl
  | cons comp rest ih =>
    unfold firstSuggestionLoop
    cases hb : strStartsWith (lowerStr comp) (lowerStr input) with
    | true => simp [List.find?_cons, hb]
    | false => simpa [List.find?_cons, hb] using ih

/-- C2 (amended): `ShowInlineSuggestion` clears the suggestion unless some
deduplicated completion — tags included — has the buffer as a
case-insensitive prefix, and then renders exactly the unmatched suffix of the
first such completion; equivalently it computes `inlineSuggestionRule`. -/
theorem c2_inline_suggestion (input : Str) (completions : List Str) :
    ShowInlineSuggestion input completions
      = inlineSuggestionRule input completions := by
  unfold ShowInlineSuggestion inlineSuggestionRule
  rw [firstSuggestionLoop_eq_find]
  rcases hdd : dedupAcc [] completions with _ | ⟨a, l⟩
  · rfl
  · rw [if_neg (List.cons_ne_nil a l)]
    rcases hfind : (a :: l).find?
        (fun comp => strStartsWith (lowerStr comp) (lowerStr input))
      with _ | s
    · rfl
    · rfl

/-- C2 counterexample: for buffer `"gi"` and completions
`["CMD: git", "CMD: gimp"]` the code clears the suggestion — the prefix test
runs against the tagged strings (`"cmd: git"` does not start with `"gi"`), so
the claimed suggestion `"git"` with rendered suffix `"t"` is not produced. -/
theorem c2_counterexample :
    ShowInlineSuggestion (toStr "gi") [toStr "CMD: git", toStr "CMD: gimp"]
        = none ∧
    ShowInlineSuggestion (toStr "gi") [toStr "CMD: git", toStr "CMD: gimp"]
        ≠ some (toStr "git", toStr "t") :=
  ⟨by decide, by decide⟩

/-! ## C1: escape-sequence decoding in the session loop (main.go:217-250 and
main.go:371-565) -/

/-- The logical key events the escape decoding can produce. -/
inductive Event where
  | up
  | down
  | right
  | ctrlUp
  | ctrlDown
  deriving DecidableEq

/-- The REACHABLE escape handler, main.go:217-250: after the ESC byte is read
at the loop head, this block consumes the rest of the sequence.  The input is
the list of bytes following ESC (running out of bytes models a read error,
after which the loop `continue`s); the result is the decoded event, if any,
and the unconsumed rest of the stream.  Only final bytes `'A'`/`'B'` produce
events (Up/Down); everything else is swallowed. -/
def mainLoopEscape : List Nat → Option Event × List Nat
  | [] => (none, [])
  | b1 :: rest =>
    if b1 = 65 then (some .up, rest)
    else if b1 = 66 then (some .down, rest)
    else if b1 = 79 ∨ b1 = 91 then
      match rest with
      | [] => (none, [])
      | b2 :: rest2 =>
        if b2 = 65 then (some .up, rest2)
        else if b2 = 66 then (some .down, rest2)
        else (none, rest2)
    else (none, rest)

/-- The switch at main.go:494-564 on the final byte: `'A'`/`'B'`/`'C'` give
Up/Down/Right, anything else falls through with no event. -/
def escFinalSwitch (ch : Nat) (rest : List Nat) : Option Event × List Nat :=
  (if ch = 65 then some Event.up
   else if ch = 66 then some Event.down
   else if ch = 67 then some Event.right
   else none, rest)

/-- The `1;5A`/`1;5B` parse at main.go:436-487: after `'1'` expect `';'` then
`'5'` then the final byte ( `'A'`/`'B'` give CtrlUp/CtrlDown, any other final
byte goes to the final switch); any mismatch falls to the final switch with
the bytes consumed so far swallowed. -/
def escStandardCtrl (ch : Nat) (rest : List Nat) : Option Event × List Nat :=
  if ch = 49 then
    match rest with
    | [] => escFinalSwitch 49 []
    | n :: r1 =>
      if n = 59 then
        match r1 with
        | [] => escFinalSwitch 49 []
        | m :: r2 =>
          if m = 53 then
            match r2 with
            | [] => escFinalSwitch 49 []
            | f :: r3 =>
              if f = 65 then (some .ctrlUp, r3)
              else if f = 66 then (some .ctrlDown, r3)
              else escFinalSwitch f r3
          else escFinalSwitch 49 r2
      else escFinalSwitch 49 r1
  else escFinalSwitch ch rest

/-- The UNREACHABLE `case 27` escape decoder, main.go:371-565 — the fuller
standard decoder the spec describes.  It requires `'['` (main.go:373), handles
the Ubuntu `'5'`+`'A'`/`'B'` Ctrl sequences (main.go:387-433), the standard
`1;5A`/`1;5B` sequences (main.go:436-487), and finally the `'A'`/`'B'`/`'C'`
switch.  This code can never run: the handler at main.go:217 intercepts every
`ch == 27` before the `switch ch` at main.go:252 is reached, so this branch is
dead code. -/
def mainLoopEscapeCase27 : List Nat → Option Event × List Nat
  | [] => (none, [])
  | b1 :: rest =>
    if b1 ≠ 91 then (none, rest)
    else
      match rest with
      | [] => (none, [])
      | b2 :: rest2 =>
        if b2 = 53 then
          match rest2 with
          | [] => escFinalSwitch 53 []
          | f :: rest3 =>
            if f = 65 then (some .ctrlUp, rest3)
            else if f = 66 then (some .ctrlDown, rest3)
            else escStandardCtrl f rest3
        else escStandardCtrl b2 rest2

/-- C1, behaviour of the code at the claim's inputs.  The reachable decoder
(`mainLoopEscape`, main.go:217-250) decodes `ESC [ A` / `ESC [ B` /
`ESC O A` as Up/Down, but swallows the final byte `'C'` with no event and
swallows `'5'` leaving the following `'A'` in the stream (it is later typed
into the buffer as a literal character); the `1;5A` sequence likewise decodes
to nothing.  The dead decoder (`mainLoopEscapeCase27`, main.go:371-565) is the
one that implements the claim: `'C'` gives Right, `5A` and `1;5A` give CtrlUp.
-/
theorem c1_escape_decoding :
    mainLoopEscape [91, 65] = (some Event.up, []) ∧
    mainLoopEscape [91, 66] = (some Event.down, []) ∧
    mainLoopEscape [79, 65] = (some Event.up, []) ∧
    mainLoopEscape [91, 67] = (none, []) ∧
    mainLoopEscape [91, 53, 65] = (none, [65]) ∧
    mainLoopEscape [91, 49, 59, 53, 65] = (none, [59, 53, 65]) ∧
    mainLoopEscapeCase27 [91, 67] = (some Event.right, []) ∧
    mainLoopEscapeCase27 [91, 53, 65] = (some Event.ctrlUp, []) ∧
    mainLoopEscapeCase27 [91, 53, 66] = (some Event.ctrlDown, []) ∧
    mainLoopEscapeCase27 [91, 49, 59, 53, 65] = (some Event.ctrlUp, []) ∧
    mainLoopEscapeCase27 [91, 49, 59, 53, 66] = (some Event.ctrlDown, []) :=
  ⟨by decide, by decide, by decide, by decide, by decide, by decide, by decide,
    by decide, by decide, by decide, by decide⟩

/-! ## C8: when historyIndex is reset (main.go:305-353, 567-640) -/

/-- The session-loop state the default/Enter branches mutate (the Terminal
fields touched by main.go:252-641; rendering and the external executor have no
state here). -/
structure Session where
  buffer : Str
  history : List Str
  historyIndex : Int
  currentSuggestions : List Str
  selectedIndex : Int
  currentSuggestion : Str
  deriving DecidableEq

/-- Embeds `SelectNextCompletion` (terminal.go:308-313). -/
def SelectNextCompletion (s : Session) : Session :=
  if 0 < s.currentSuggestions.length then
    { s with selectedIndex :=
        (Int.tmod (s.selectedIndex + 1) s.currentSuggestions.length) }
  else s

/-- Embeds `SelectPreviousCompletion` (terminal.go:316-321). -/
def SelectPreviousCompletion (s : Session) : Session :=
  if 0 < s.currentSuggestions.length then
    { s with selectedIndex :=
        (Int.tmod (s.selectedIndex - 1 + s.currentSuggestions.length)
          s.currentSuggestions.length) }
  else s

/-- The repeated fetch-if-empty block (e.g. main.go:584-591): when no dropdown
is populated, recompute completions for the buffer and select the first. -/
def fetchCompletionsIfEmpty (env : Env) (s : Session) : Session :=
  if s.currentSuggestions = [] then
    if GetCompletions env s.history s.buffer ≠ [] then
      { s with currentSuggestions := GetCompletions env s.history s.buffer,
               selectedIndex := 0 }
    else { s with currentSuggestions := GetCompletions env s.history s.buffer }
  else s

/-- Strip the last two characters from the buffer (main.go:574-576). -/
def stripTail2 (s : Session) : Session :=
  { s with buffer := s.buffer.take (s.buffer.length - 2) }

/-- The literal `"5A"`/`"5B"` tail handler at main.go:570-614: strip the two
characters, fetch completions if none are shown, then move the selection. -/
def ctrlSeqTailStep (env : Env) (s : Session) (up : Bool) : Session :=
  if (fetchCompletionsIfEmpty env (stripTail2 s)).currentSuggestions ≠ [] then
    if up then SelectPreviousCompletion (fetchCompletionsIfEmpty env (stripTail2 s))
    else SelectNextCompletion (fetchCompletionsIfEmpty env (stripTail2 s))
  else fetchCompletionsIfEmpty env (stripTail2 s)

/-- The last two characters of the buffer (`inputStr[len(inputStr)-2:]`). -/
def tail2 (b : Str) : Str := b.drop (b.length - 2)

/-- The `default` branch of the keystroke switch (main.go:567-640): first the
`"5A"`/`"5B"` tail heuristic (which discards the byte just read), then, for a
printable byte (32..126), echo and append it, recompute the dropdown
completions, and recompute the inline suggestion.  `historyIndex` is not
touched on this path. -/
def defaultCharStep (env : Env) (s : Session) (ch : Nat) : Session :=
  if 2 ≤ s.buffer.length ∧
      (tail2 s.buffer = toStr "5A" ∨ tail2 s.buffer = toStr "5B") then
    ctrlSeqTailStep env s (tail2 s.buffer = toStr "5A")
  else if 32 ≤ ch ∧ ch < 127 then
    { buffer := s.buffer ++ [Char.ofNat ch],
      history := s.history,
      historyIndex := s.historyIndex,
      currentSuggestions :=
        GetCompletions env s.history (s.buffer ++ [Char.ofNat ch]),
      selectedIndex :=
        if GetCompletions env s.history (s.buffer ++ [Char.ofNat ch]) ≠ []
        then 0 else s.selectedIndex,
      currentSuggestion :=
        match ShowInlineSuggestion (s.buffer ++ [Char.ofNat ch])
            (GetCompletions env s.history (s.buffer ++ [Char.ofNat ch])) with
        | some (sugg, _) => sugg
        | none => [] }
  else s

/-- The Enter branch (main.go:305-353): `ResetHistoryIndex` (main.go:313),
then for a nonempty buffer `AddToHistory` (main.go:317), then the buffer is
cleared (built-ins and the executor are external to this state). -/
def enterKeyStep (s : Session) : Session :=
  if s.buffer ≠ [] then
    { s with historyIndex := ResetHistoryIndex,
             history := AddToHistory s.history s.buffer,
             buffer := [] }
  else { s with historyIndex := ResetHistoryIndex, buffer := [] }

theorem SelectNextCompletion_historyIndex (s : Session) :
    (SelectNextCompletion s).historyIndex = s.historyIndex := by
  unfold SelectNextCompletion
  split <;> rfl

theorem SelectPreviousCompletion_historyIndex (s : Session) :
    (SelectPreviousCompletion s).historyIndex = s.historyIndex := by
  unfold SelectPreviousCompletion
  split <;> rfl

theorem fetchCompletionsIfEmpty_historyIndex (env : Env) (s : Session) :
    (fetchCompletionsIfEmpty env s).historyIndex = s.historyIndex := by
  unfold fetchCompletionsIfEmpty
  split
  · split <;> rfl
  · rfl

theorem ctrlSeqTailStep_historyIndex (env : Env) (s : Session) (up : Bool) :
    (ctrlSeqTailStep env s up).historyIndex = s.historyIndex := by
  unfold ctrlSeqTailStep
  have hf : (fetchCompletionsIfEmpty env (stripTail2 s)).historyIndex
      = s.historyIndex :=
    fetchCompletionsIfEmpty_historyIndex env (stripTail2 s)
  split
  · split
    · rw [SelectPreviousCompletion_historyIndex]
      exact hf
    · rw [SelectNextCompletion_historyIndex]
      exact hf
  · exact hf

/-- C8 (amended): the navigation cursor `historyIndex` is reset to `-1`
whenever a line is committed with Enter, but typing a printable character into
the line buffer (the default branch of the keystroke switch) leaves
`historyIndex` unchanged — no reset happens there. -/
theorem c8_reset_on_commit_only :
    (∀ (env : Env) (s : Session) (ch : Nat),
      (defaultCharStep env s ch).historyIndex = s.historyIndex) ∧
    (∀ s : Session, (enterKeyStep s).historyIndex = -1) := by
  constructor
  · intro env s ch
    unfold defaultCharStep
    split
    · exact ctrlSeqTailStep_historyIndex env s _
    · split <;> rfl
  · intro s
    unfold enterKeyStep
    split <;> rfl

/-- C8 counterexample: a session navigating history (`historyIndex = 0`,
nonempty history) types the printable character `'a'` (byte 97); afterwards
`historyIndex` is still `0`, not `-1` as the claim requires. -/
theorem c8_counterexample :
    (defaultCharStep envNoFS
      { buffer := toStr "l", history := [toStr "ls"], historyIndex := 0,
        currentSuggestions := [], selectedIndex := 0, currentSuggestion := [] }
      97).historyIndex = 0 ∧
    (defaultCharStep envNoFS
      { buffer := toStr "l", history := [toStr "ls"], historyIndex := 0,
        currentSuggestions := [], selectedIndex := 0, currentSuggestion := [] }
      97).historyIndex ≠ -1 :=
  ⟨by decide, by decide⟩
